import Mathlib

/-!
Shallow embedding of `src/visualization.py`: the data-to-visual
transformation layer of the attribution visualisation module.
Scores and embedding values are modelled as rationals; machine
integer casts (numpy `int8`) and Python / numpy indexing rules are
made explicit.
-/

namespace Viz

/-! ## Rank/Color Mapper (`visualize_attrs`, lines 36-47)

`df.rank(axis=0, method="min", ascending=False)`: sort the scores in
descending order and give each score the position (1-based) of its first
occurrence in that sorted order; tied values therefore all receive the
minimum rank of their group. -/

/-- The attribution scores sorted descending (value-level result of the
sort performed by the ranking routine). -/
def sortedDesc (xs : List ℚ) : List ℚ := xs.insertionSort (· ≥ ·)

/-- Embedding of `df.rank(axis=0, method="min", ascending=False)`:
the rank of each element is one plus the index of its first occurrence in the
descending-sorted list. -/
def rankMin (xs : List ℚ) : List ℕ :=
  xs.map (fun x => 1 + (sortedDesc xs).indexOf x)

/-- Wrap of an integer into numpy `int8` (8-bit twos-complement wraparound):
embedding of `.to_numpy(dtype=np.int8)`. -/
def toInt8 (r : ℤ) : ℤ := (r + 128) % 256 - 128

/-- The rank vector after the `np.int8` cast on line 42. -/
def rankInt8 (xs : List ℚ) : List ℤ :=
  (rankMin xs).map (fun (r : ℕ) => toInt8 (r : ℤ))

/-- Error-propagating map (the `Except` effect of applying an operation
elementwise, stopping at the first failure). -/
def exceptMap (f : α → Except String β) : List α → Except String (List β)
  | [] => Except.ok []
  | a :: as =>
    match f a with
    | Except.error e => Except.error e
    | Except.ok b =>
      match exceptMap f as with
      | Except.error e => Except.error e
      | Except.ok bs => Except.ok (b :: bs)

/-- numpy fancy indexing of a `palSize`-element palette
(`np.array(pal)[rank]`): index `r` selects entry `r` when
`0 ≤ r < palSize`, entry `palSize + r` when `-palSize ≤ r < 0`, and
raises `IndexError` otherwise. -/
def paletteLookup (palSize : ℕ) (idx : List ℤ) : Except String (List ℕ) :=
  exceptMap (fun r =>
    if 0 ≤ r ∧ r < (palSize : ℤ) then Except.ok r.toNat
    else if -(palSize : ℤ) ≤ r ∧ r < 0 then Except.ok (palSize - (-r).toNat)
    else Except.error "IndexError: index out of bounds") idx

/-- Pre-render computation of `visualize_attrs`: the palette has
`len(token_words)` colors (line 37) and, per entry of `bl_attrs`, the
int8-cast rank vector indexes that palette (lines 40-47).  No shape
check between attribution length and token count appears anywhere. -/
def visualize_attrs_prep (bl_attrs : List (String × List ℚ))
    (token_words : List String) : Except String (List (List ℕ)) :=
  exceptMap (fun e => paletteLookup token_words.length (rankInt8 e.2)) bl_attrs

/-! ## Robust Distribution Statistics (`embedding_histogram`, lines 82-103) -/

/-- Embedding of `np.mean(flattened)`. -/
def mean (xs : List ℚ) : ℚ := xs.sum / xs.length

/-- Embedding of the square of `np.std(flattened)` (numpy default
`ddof=0`, i.e. population variance: divide by `N`).  The standard
deviation itself is irrational in general; all uses below compare
against its square. -/
def variance (xs : List ℚ) : ℚ :=
  ((xs.map (fun x => (x - mean xs) ^ 2)).sum) / xs.length

/-- Embedding of the predicate `(flattened > bot) & (flattened < top)`
with `top = mu + 2.58 * sigma`, `bot = mu - 2.58 * sigma` (lines 86-88):
over the reals, `bot < x < top` holds iff `(x - mu)^2 < 2.58^2 * sigma^2`
and `sigma^2` is `variance`, so the predicate is decided on rationals. -/
def inBounds (xs : List ℚ) (x : ℚ) : Bool :=
  decide ((x - mean xs) ^ 2 < (258 / 100) ^ 2 * variance xs)

/-- Embedding of `count = np.sum((flattened > bot) & (flattened < top))`. -/
def countIn (xs : List ℚ) : ℕ := xs.countP (inBounds xs)

/-- The printed containment percentage `(100 * count) / len(flattened)`. -/
def pct (xs : List ℚ) : ℚ := 100 * countIn xs / xs.length

/-- Embedding of the Python built-in `round` (half-to-even rounding),
modelled on exact rationals. -/
def roundHalfEven (q : ℚ) : ℤ :=
  if q - ⌊q⌋ < 1 / 2 then ⌊q⌋
  else if 1 / 2 < q - ⌊q⌋ then ⌊q⌋ + 1
  else if ⌊q⌋ % 2 = 0 then ⌊q⌋ else ⌊q⌋ + 1

/-- Embedding of `n_outliers = round(len(flattened) * 0.001)` (line 91). -/
def kOut (n : ℕ) : ℕ := (roundHalfEven ((n : ℚ) / 1000)).toNat

/-- Embedding of `np.sort(flattened)` (ascending). -/
def sortedAsc (xs : List ℚ) : List ℚ := xs.insertionSort (· ≤ ·)

/-- Python / numpy 1-d indexing: a non-negative index `i` selects element
`i` (error once `i ≥ len`), a negative index `i` selects element
`len + i` (error once `len + i < 0`).  Errors are modelled as `none`. -/
def pyIdx (a : List ℚ) (i : ℤ) : Option ℚ :=
  if 0 ≤ i then a.get? i.toNat
  else if (-i).toNat ≤ a.length then a.get? (a.length - (-i).toNat)
  else none

/-- Embedding of `soft_top = flattened_sorted[n_outliers]` (line 92). -/
def soft_top (xs : List ℚ) : Option ℚ :=
  pyIdx (sortedAsc xs) (kOut xs.length)

/-- Embedding of `soft_bot = flattened_sorted[-n_outliers]` (line 93). -/
def soft_bot (xs : List ℚ) : Option ℚ :=
  pyIdx (sortedAsc xs) (-(kOut xs.length : ℤ))

/-! ## Path Annotation Reducer
(`visualize_word_path` lines 253-257, `visualize_word_paths` lines 208-212) -/

/-- Embedding of the annotation loop: `last_word = None`, then for each
`(i, word)` annotate and set `last_word = word` whenever
`word != last_word`. -/
def annotLoop : Option String → ℕ → List String → List (ℕ × String)
  | _, _, [] => []
  | last, i, w :: ws =>
    if some w ≠ last then (i, w) :: annotLoop (some w) (i + 1) ws
    else annotLoop last (i + 1) ws

/-- The (index, label) pairs annotated along a word path. -/
def pathAnnot (words : List String) : List (ℕ × String) :=
  annotLoop none 0 words

/-- Modelled from the contract in the spec for the Path Annotation Reducer:
the pairs `(i, words[i])` with `i = 0` or `words[i] ≠ words[i-1]`, in
input order. -/
def annotSpec (words : List String) : List (ℕ × String) :=
  (List.range words.length).filterMap fun i =>
    if i = 0 ∨ words.getD i "" ≠ words.getD (i - 1) "" then
      some (i, words.getD i "") else none

/-! ## Figure composers: save/display behaviour -/

/-- What a composer does with the finished figure. -/
inductive OutputAction where
  | display : OutputAction
  | save : List Char → OutputAction
deriving DecidableEq

/-- The canonical image extension `".png"`. -/
def pngExt : List Char := ['.', 'p', 'n', 'g']

/-- The fixed output directory prefix `Path("figures") / ...`. -/
def figuresDir : List Char := ['f', 'i', 'g', 'u', 'r', 'e', 's', '/']

/-- Embedding of the extension normalisation
`if not save_str.endswith(".png"): save_str += ".png"`. -/
def normalizeSave (s : List Char) : List Char :=
  if pngExt.isSuffixOf s then s else s ++ pngExt

/-- The shared save/display tail of `visualize_attrs`,
`visualize_ablation_scores`, `visualize_word_paths`,
`visualize_word_path` and `visualize_word_path_table`:
save under `figures/` when a name is given, otherwise show. -/
def savePlan (save_str : Option (List Char)) : List OutputAction :=
  match save_str with
  | some s => [OutputAction.save (figuresDir ++ normalizeSave s)]
  | none => [OutputAction.display]

/-- Output behaviour of `visualize_attrs` (lines 74-79). -/
def visualize_attrs_output (s : Option (List Char)) : List OutputAction :=
  savePlan s

/-- Output behaviour of `visualize_ablation_scores` (lines 137-142). -/
def visualize_ablation_scores_output (s : Option (List Char)) : List OutputAction :=
  savePlan s

/-- Output behaviour of `visualize_word_paths` (lines 220-225). -/
def visualize_word_paths_output (s : Option (List Char)) : List OutputAction :=
  savePlan s

/-- Output behaviour of `visualize_word_path` (lines 258-263). -/
def visualize_word_path_output (s : Option (List Char)) : List OutputAction :=
  savePlan s

/-- Output behaviour of `visualize_word_path_table` (lines 290-295). -/
def visualize_word_path_table_output (s : Option (List Char)) : List OutputAction :=
  savePlan s

/-- Output behaviour of `embedding_histogram` (line 112): it takes no
save name and always calls `plt.show()`. -/
def embedding_histogram_output : List OutputAction :=
  [OutputAction.display]

/-- Output behaviour of `visualize_embedding_space` (lines 159-160): it
takes no save name, unconditionally saves to
`figures/pca_embedding_space.png`, then shows. -/
def visualize_embedding_space_output : List OutputAction :=
  [OutputAction.save ("figures/pca_embedding_space.png".toList),
   OutputAction.display]

/-! ## Helper lemmas -/

/-- In a descending-sorted list, the index of the first occurrence of a
member equals the number of elements strictly greater than it. -/
theorem indexOf_sorted_ge (s : List ℚ) (hs : s.Sorted (· ≥ ·)) (x : ℚ)
    (hx : x ∈ s) : s.indexOf x = s.countP (fun y => decide (x < y)) := by
  induction s with
  | nil => cases hx
  | cons a t ih =>
    rcases List.sorted_cons.mp hs with ⟨ha, ht⟩
    rw [List.countP_cons]
    by_cases hax : a = x
    · subst hax
      rw [List.indexOf_cons_self]
      have h0 : t.countP (fun y => decide (a < y)) = 0 := by
        rw [List.countP_eq_zero]
        intro y hy
        simpa using not_lt_of_le (ha y hy)
      simp [h0]
    · have hxt : x ∈ t := by
        rcases List.mem_cons.mp hx with h | h
        · exact absurd h.symm hax
        · exact h
      have hlt : x < a := lt_of_le_of_ne (ha x hxt) (fun e => hax e.symm)
      rw [List.indexOf_cons_ne _ hax, ih ht hxt]
      simp [hlt, Nat.succ_eq_add_one, Nat.add_comm]

/-- The rank of the element at position `i` equals one plus the number of
strictly greater scores. -/
theorem rankMin_getD (xs : List ℚ) (i : ℕ) (hi : i < xs.length) :
    (rankMin xs).getD i 0 =
      1 + xs.countP (fun y => decide (xs.getD i 0 < y)) := by
  have hlen : (rankMin xs).length = xs.length := by simp [rankMin]
  have hi2 : i < (rankMin xs).length := by rw [hlen]; exact hi
  rw [List.getD_eq_getElem _ _ hi2, List.getD_eq_getElem _ _ hi]
  have hmap : (rankMin xs)[i] = 1 + (sortedDesc xs).indexOf xs[i] := by
    simp [rankMin]
  rw [hmap]
  have hperm : List.Perm (sortedDesc xs) xs := List.perm_insertionSort _ _
  have hmem : xs[i] ∈ sortedDesc xs :=
    hperm.mem_iff.mpr (List.getElem_mem hi)
  rw [indexOf_sorted_ge (sortedDesc xs) (List.sorted_insertionSort _ _)
    xs[i] hmem, hperm.countP_eq]

/-! ## Claims about the Rank/Color Mapper -/

/-- Claim C1: the rank vector of the attribution bar-chart composer is
descending competition ranking: `rank[i] = 1 + |{j : score[j] > score[i]}|`,
so the largest score gets rank 1, ties get the minimum rank of their
group, and for `[0.1, 0.9, 0.9, 0.2, 0.05]` the ranks are
`[4, 1, 1, 3, 5]`. -/
theorem rank_descending_competition (xs : List ℚ) :
    (∀ i, i < xs.length →
      (rankMin xs).getD i 0 =
        1 + xs.countP (fun y => decide (xs.getD i 0 < y)))
    ∧ rankMin [1/10, 9/10, 9/10, 2/10, 1/20] = [4, 1, 1, 3, 5] := by
  refine ⟨fun i hi => rankMin_getD xs i hi, ?_⟩
  norm_num [rankMin, sortedDesc, List.insertionSort, List.orderedInsert,
    List.indexOf_cons, Bool.cond_eq_ite, beq_iff_eq]

/-- Concrete instance of `rank_descending_competition`: for the five-element
example of the spec, position 0 (score 0.1) has three strictly greater
scores and hence rank 4. -/
theorem rank_descending_competition_witness :
    0 < ([1/10, 9/10, 9/10, 2/10, 1/20] : List ℚ).length
    ∧ (rankMin [1/10, 9/10, 9/10, 2/10, 1/20]).getD 0 0 =
      1 + ([1/10, 9/10, 9/10, 2/10, 1/20] : List ℚ).countP
        (fun y => decide (([1/10, 9/10, 9/10, 2/10, 1/20] : List ℚ).getD 0 0 < y)) :=
  ⟨by simp, (rank_descending_competition [1/10, 9/10, 9/10, 2/10, 1/20]).1 0 (by simp)⟩

/-- The int8 wrap of a value between -128 and 127 is the value itself. -/
theorem toInt8_of_bounded (r : ℤ) (h0 : -128 ≤ r) (h : r ≤ 127) : toInt8 r = r := by
  unfold toInt8; omega

/-- Any int8-wrapped value lies between -128 and 127. -/
theorem toInt8_mem_range (r : ℤ) : -128 ≤ toInt8 r ∧ toInt8 r ≤ 127 := by
  unfold toInt8; omega

/-- Every non-empty list of rationals has a least element. -/
theorem exists_list_min (xs : List ℚ) (h : xs ≠ []) :
    ∃ m ∈ xs, ∀ y ∈ xs, m ≤ y := by
  induction xs with
  | nil => exact absurd rfl h
  | cons a t ih =>
    cases t with
    | nil => exact ⟨a, by simp⟩
    | cons b t2 =>
      obtain ⟨m, hm, hmin⟩ := ih (by simp)
      by_cases hle : a ≤ m
      · refine ⟨a, by simp, fun y hy => ?_⟩
        rcases List.mem_cons.mp hy with h | h
        · exact h ▸ le_refl a
        · exact le_trans hle (hmin y h)
      · refine ⟨m, List.mem_cons_of_mem a hm, fun y hy => ?_⟩
        rcases List.mem_cons.mp hy with h | h
        · exact h ▸ le_of_not_le hle
        · exact hmin y h

/-- Sorting a constant list leaves it unchanged. -/
theorem sortedDesc_replicate (n : ℕ) (x : ℚ) :
    sortedDesc (List.replicate n x) = List.replicate n x := by
  induction n with
  | zero => rfl
  | succ n ih =>
    have h : List.replicate (n + 1) x = x :: List.replicate n x :=
      List.replicate_succ x n
    rw [h]
    show List.insertionSort _ (x :: List.replicate n x) = _
    rw [List.insertionSort]
    have ih2 : List.insertionSort (fun a b => a ≥ b) (List.replicate n x) =
        List.replicate n x := ih
    rw [ih2]
    cases n with
    | zero => rfl
    | succ m =>
      rw [List.replicate_succ x m, List.orderedInsert]
      simp [le_refl]

/-- In a list with no duplicate scores, the rank of the minimum is the length
of the list. -/
theorem rank_of_min_eq_length (xs : List ℚ) (hd : xs.Nodup) (hne : xs ≠ []) :
    ∃ r ∈ rankMin xs, r = xs.length := by
  obtain ⟨m, hm, hmin⟩ := exists_list_min xs hne
  refine ⟨1 + (sortedDesc xs).indexOf m, List.mem_map_of_mem _ hm, ?_⟩
  have hperm : List.Perm (sortedDesc xs) xs := List.perm_insertionSort _ _
  have hmem : m ∈ sortedDesc xs := hperm.mem_iff.mpr hm
  rw [indexOf_sorted_ge (sortedDesc xs) (List.sorted_insertionSort _ _) m hmem,
    hperm.countP_eq]
  have hsplit := xs.length_eq_countP_add_countP (fun y => decide (m < y))
  have hcount : xs.countP (fun y => decide (¬(decide (m < y) = true))) =
      xs.count m := by
    rw [List.count]
    apply List.countP_congr
    intro y hy
    by_cases hym : y = m
    · subst hym; simp
    · have : m < y := lt_of_le_of_ne (hmin y hy) (fun e => hym e.symm)
      simp [this, hym]
  have hone : xs.count m = 1 := List.count_eq_one_of_mem hd hm
  rw [hcount, hone] at hsplit
  omega

/-! ## Claims about the int8 cast and the palette lookup -/

/-- Claim C9 (amended): ranks are cast to `np.int8`; a rank value is kept
faithfully iff it is at most 127, and for every vector of at least 128
pairwise-distinct scores some rank value (that of the minimum, which
equals the length) is changed by the cast. -/
theorem int8_rank_wrap (xs : List ℚ) (hd : xs.Nodup) (hlen : 128 ≤ xs.length) :
    (∀ r ∈ rankMin xs, r ≤ 127 → toInt8 r = (r : ℤ))
    ∧ ∃ r ∈ rankMin xs, 128 ≤ r ∧ toInt8 r ≠ (r : ℤ) := by
  constructor
  · intro r _ hr
    refine toInt8_of_bounded r (by omega) (by exact_mod_cast hr)
  · obtain ⟨r, hrmem, hr⟩ := rank_of_min_eq_length xs hd (by
      intro h; rw [h] at hlen; simp at hlen)
    refine ⟨r, hrmem, by omega, ?_⟩
    have h2 := toInt8_mem_range r
    intro he
    omega

/-- Concrete instance of `int8_rank_wrap`: 128 distinct scores 0..127. -/
theorem int8_rank_wrap_witness :
    ((List.range 128).map (fun n : ℕ => (n : ℚ))).Nodup
    ∧ 128 ≤ ((List.range 128).map (fun n : ℕ => (n : ℚ))).length
    ∧ ∃ r ∈ rankMin ((List.range 128).map (fun n : ℕ => (n : ℚ))),
        128 ≤ r ∧ toInt8 r ≠ (r : ℤ) := by
  have hnd : ((List.range 128).map (fun n : ℕ => (n : ℚ))).Nodup :=
    (List.nodup_range 128).map Nat.cast_injective
  exact ⟨hnd, by simp,
    (int8_rank_wrap ((List.range 128).map (fun n : ℕ => (n : ℚ))) hnd (by simp)).2⟩

/-- Claim C9 counterexample: a vector of 128 tied scores has every rank
equal to 1, and the int8 cast changes none of them, although the vector
has more than 127 tokens. -/
theorem int8_no_wrap_all_ties :
    rankMin (List.replicate 128 (0 : ℚ)) = List.replicate 128 1
    ∧ rankInt8 (List.replicate 128 (0 : ℚ)) = List.replicate 128 (1 : ℤ)
    ∧ 127 < (List.replicate 128 (0 : ℚ)).length := by
  have hidx : List.indexOf (0 : ℚ) (List.replicate 128 (0 : ℚ)) = 0 := by
    rw [List.replicate_succ]
    exact List.indexOf_cons_self _ _
  have h1 : rankMin (List.replicate 128 (0 : ℚ)) = List.replicate 128 1 := by
    unfold rankMin
    rw [sortedDesc_replicate, List.map_replicate, hidx]
  refine ⟨h1, ?_, by simp⟩
  unfold rankInt8
  rw [h1, List.map_replicate]
  norm_num [toInt8]

/-- Claim C4 (code bug): the composer indexes the palette with the rank
value itself, so on the example given in the spec (ranks `[4,1,1,3,5]`, palette
of 5 colors) index 5 is out of bounds and the lookup raises; moreover a
pair of tied top scores (both rank 1) is sent to palette index 1, not to
the first palette entry. -/
theorem palette_index_out_of_bounds :
    visualize_attrs_prep [("b", [1/10, 9/10, 9/10, 2/10, 1/20])]
        ["the", "movie", "was", "really", "great"] =
      Except.error "IndexError: index out of bounds"
    ∧ (["the", "movie", "was", "really", "great"] : List String).length = 5
    ∧ visualize_attrs_prep [("b", [(1 : ℚ), 1])] ["a", "b"] =
        Except.ok [[1, 1]] := by
  refine ⟨?_, by simp, ?_⟩ <;>
    norm_num [visualize_attrs_prep, paletteLookup, exceptMap, rankInt8, rankMin,
      sortedDesc, List.insertionSort, List.orderedInsert, List.indexOf_cons,
      Bool.cond_eq_ite, beq_iff_eq, toInt8]

/-- Claim C8 (amended): `visualize_attrs` performs no shape validation:
a call whose attribution vector length differs from the token-label
count is not rejected — with a single attribution score and at least two
token labels the whole pre-render computation succeeds. -/
theorem no_shape_validation (a : ℚ) (bl : String) (tokens : List String)
    (h : 2 ≤ tokens.length) :
    visualize_attrs_prep [(bl, [a])] tokens = Except.ok [[1]] := by
  have hsd : sortedDesc [a] = [a] := by
    simp [sortedDesc, List.insertionSort, List.orderedInsert]
  have hidx : List.indexOf a (sortedDesc [a]) = 0 := by
    rw [hsd, List.indexOf_cons_self]
  have hrank : rankMin [a] = [1] := by
    simp [rankMin, hidx]
  have ht : toInt8 1 = 1 := by norm_num [toInt8]
  have hc : (1 : ℤ) < (tokens.length : ℤ) := by exact_mod_cast h
  simp [visualize_attrs_prep, exceptMap, paletteLookup, rankInt8, rankMin,
    hidx, ht, hc]

/-- Concrete instance of `no_shape_validation`: one attribution score
against two token labels is accepted. -/
theorem no_shape_validation_witness :
    2 ≤ (["a", "b"] : List String).length
    ∧ visualize_attrs_prep [("bl", [(5 : ℚ)])] ["a", "b"] = Except.ok [[1]] :=
  ⟨by simp, no_shape_validation 5 "bl" ["a", "b"] (by simp)⟩

/-- Claim C8 counterexample: a shape-mismatched call (1 attribution
score, 2 token labels) completes the pre-render computation without any
error. -/
theorem shape_mismatch_not_rejected :
    visualize_attrs_prep [("bl", [(7 : ℚ)])] ["a", "b"] = Except.ok [[1]]
    ∧ ([(7 : ℚ)] : List ℚ).length ≠ (["a", "b"] : List String).length := by
  constructor
  · norm_num [visualize_attrs_prep, paletteLookup, exceptMap, rankInt8, rankMin,
      sortedDesc, List.insertionSort, List.orderedInsert, List.indexOf_cons,
      Bool.cond_eq_ite, beq_iff_eq, toInt8]
  · simp

/-- Half-even rounding never exceeds the value by more than one half. -/
theorem roundHalfEven_le (q : ℚ) : (roundHalfEven q : ℚ) ≤ q + 1 / 2 := by
  unfold roundHalfEven
  have h1 : (⌊q⌋ : ℚ) ≤ q := Int.floor_le q
  have h2 : q < (⌊q⌋ : ℚ) + 1 := Int.lt_floor_add_one q
  split_ifs with c1 c2 c3 <;> push_cast <;> linarith

/-- Half-even rounding of a non-negative value is non-negative. -/
theorem roundHalfEven_nonneg (q : ℚ) (h : 0 ≤ q) : 0 ≤ roundHalfEven q := by
  unfold roundHalfEven
  have h1 : (0 : ℤ) ≤ ⌊q⌋ := Int.floor_nonneg.mpr h
  split_ifs <;> omega

/-- The outlier index is strictly smaller than the array length. -/
theorem kOut_lt (n : ℕ) (h : 0 < n) : kOut n < n := by
  have hq : (0 : ℚ) ≤ (n : ℚ) / 1000 := by positivity
  have h0 : 0 ≤ roundHalfEven ((n : ℚ) / 1000) := roundHalfEven_nonneg _ hq
  have hle : (roundHalfEven ((n : ℚ) / 1000) : ℚ) ≤ (n : ℚ) / 1000 + 1 / 2 :=
    roundHalfEven_le _
  have hn1 : (1 : ℚ) ≤ (n : ℚ) := by exact_mod_cast h
  have hlt : ((n : ℚ) / 1000) + 1 / 2 < (n : ℚ) := by linarith
  have : (roundHalfEven ((n : ℚ) / 1000) : ℚ) < ((n : ℤ) : ℚ) := by
    push_cast; linarith
  have hz : roundHalfEven ((n : ℚ) / 1000) < (n : ℤ) := by exact_mod_cast this
  unfold kOut
  omega

/-- Below 500 elements the outlier index is zero (`round(0.001*N) = 0`). -/
theorem kOut_eq_zero (n : ℕ) (h : n < 500) : kOut n = 0 := by
  have hq : (0 : ℚ) ≤ (n : ℚ) / 1000 := by positivity
  have hn : (n : ℚ) < 500 := by exact_mod_cast h
  have hhalf : (n : ℚ) / 1000 < 1 / 2 := by
    rw [div_lt_iff₀ (by norm_num : (0:ℚ) < 1000)]
    linarith
  have hfl : ⌊(n : ℚ) / 1000⌋ = 0 := by
    rw [Int.floor_eq_zero_iff]
    constructor
    · exact hq
    · linarith
  unfold kOut roundHalfEven
  rw [hfl]
  rw [if_pos (by push_cast; linarith)]
  rfl

/-- Python indexing at a non-negative position. -/
theorem pyIdx_natCast (a : List ℚ) (k : ℕ) : pyIdx a (k : ℤ) = a.get? k := by
  unfold pyIdx
  rw [if_pos (Int.natCast_nonneg _)]
  simp

/-- Python indexing at a negative position `-k` (with `1 ≤ k ≤ len`)
selects the element `k` positions from the end. -/
theorem pyIdx_neg (a : List ℚ) (k : ℕ) (h1 : 1 ≤ k) (h2 : k ≤ a.length) :
    pyIdx a (-(k : ℤ)) = a.get? (a.length - k) := by
  unfold pyIdx
  rw [if_neg (by omega), if_pos (by simpa using h2)]
  simp

/-! ## Claims about the soft outlier bounds -/

/-- Claim C2 (amended): `soft_top` is `sorted[k]`, and `soft_bot` is
`sorted[(N-k) mod N]` — i.e. `sorted[N-k]` when `k ≥ 1` but `sorted[0]`
(Python index `-0`) when `k = 0`; both indices are always in range. -/
theorem soft_bounds_index (xs : List ℚ) (h : xs ≠ []) :
    soft_top xs = (sortedAsc xs).get? (kOut xs.length)
    ∧ soft_bot xs =
        (sortedAsc xs).get? ((xs.length - kOut xs.length) % xs.length)
    ∧ (soft_top xs).isSome = true ∧ (soft_bot xs).isSome = true
    ∧ (1 ≤ kOut xs.length →
        soft_bot xs = (sortedAsc xs).get? (xs.length - kOut xs.length)) := by
  have hn : 0 < xs.length := List.length_pos.mpr h
  have hk : kOut xs.length < xs.length := kOut_lt xs.length hn
  have hlen : (sortedAsc xs).length = xs.length := List.length_insertionSort _ _
  have htop : soft_top xs = (sortedAsc xs).get? (kOut xs.length) := by
    unfold soft_top
    exact pyIdx_natCast _ _
  have hbotpair : soft_bot xs =
      (sortedAsc xs).get? ((xs.length - kOut xs.length) % xs.length)
      ∧ (1 ≤ kOut xs.length →
          soft_bot xs = (sortedAsc xs).get? (xs.length - kOut xs.length)) := by
    by_cases h0 : kOut xs.length = 0
    · constructor
      · unfold soft_bot
        rw [h0]
        rw [show (-((0 : ℕ) : ℤ)) = ((0 : ℕ) : ℤ) by norm_num]
        rw [pyIdx_natCast]
        rw [Nat.sub_zero, Nat.mod_self]
      · intro h1; omega
    · have h1 : 1 ≤ kOut xs.length := by omega
      have he : soft_bot xs = (sortedAsc xs).get? (xs.length - kOut xs.length) := by
        unfold soft_bot
        rw [pyIdx_neg _ _ h1 (by omega), hlen]
      refine ⟨?_, fun _ => he⟩
      rw [he, Nat.mod_eq_of_lt (by omega)]
  have hts : (soft_top xs).isSome = true := by
    rw [htop, List.get?_eq_get (by omega)]
    rfl
  have hbs : (soft_bot xs).isSome = true := by
    rw [hbotpair.1, List.get?_eq_get (by rw [hlen]; exact Nat.mod_lt _ hn)]
    rfl
  exact ⟨htop, hbotpair.1, hts, hbs, hbotpair.2⟩

/-- Concrete instance of `soft_bounds_index` at the three-element array
`[1, 2, 3]`. -/
theorem soft_bounds_index_witness :
    ([1, 2, 3] : List ℚ) ≠ []
    ∧ soft_top [1, 2, 3] = (sortedAsc [1, 2, 3]).get? (kOut 3)
    ∧ soft_bot [1, 2, 3] =
        (sortedAsc [1, 2, 3]).get? ((3 - kOut 3) % 3) := by
  refine ⟨by simp, ?_, ?_⟩
  · simpa using (soft_bounds_index [1, 2, 3] (by simp)).1
  · simpa using (soft_bounds_index [1, 2, 3] (by simp)).2.1

/-- Claim C2 counterexample: for `[1, 2, 3]` (so `N = 3`, `k = 0`) the
value of `soft_bot` in the code is the minimum `1` = `sorted[0]`, while the claimed
index `N - k = 3` does not exist, and the element at the end of the
sorted array is `3 ≠ 1`. -/
theorem soft_bot_counterexample :
    soft_bot [1, 2, 3] = some 1
    ∧ (sortedAsc [1, 2, 3]).get? (3 - kOut 3) = none
    ∧ (sortedAsc [1, 2, 3]).getLast? = some 3 := by
  have hk : kOut 3 = 0 := kOut_eq_zero 3 (by norm_num)
  have hs : sortedAsc [1, 2, 3] = [1, 2, 3] := by
    norm_num [sortedAsc, List.insertionSort, List.orderedInsert]
  have hk3 : kOut ([1, 2, 3] : List ℚ).length = 0 := by
    have hl : ([1, 2, 3] : List ℚ).length = 3 := by simp
    rw [hl]; exact hk
  refine ⟨?_, ?_, ?_⟩
  · unfold soft_bot
    rw [hk3]
    rw [show (-((0 : ℕ) : ℤ)) = ((0 : ℕ) : ℤ) by norm_num, pyIdx_natCast, hs]
    rfl
  · rw [hk, hs]; rfl
  · rw [hs]; rfl

/-- Claim C10: with fewer than 500 elements the outlier index is 0 and
both soft bounds are `sorted[0]`, the minimum element; no out-of-range
access occurs. -/
theorem soft_bounds_small (xs : List ℚ) (h : xs ≠ []) (h500 : xs.length < 500) :
    kOut xs.length = 0
    ∧ soft_top xs = (sortedAsc xs).get? 0
    ∧ soft_bot xs = soft_top xs
    ∧ (soft_top xs).isSome = true
    ∧ ∀ y ∈ xs, (sortedAsc xs).getD 0 0 ≤ y := by
  have hn : 0 < xs.length := List.length_pos.mpr h
  have hk : kOut xs.length = 0 := kOut_eq_zero _ h500
  have hlen : (sortedAsc xs).length = xs.length := List.length_insertionSort _ _
  have htop : soft_top xs = (sortedAsc xs).get? 0 := by
    unfold soft_top
    rw [hk]
    exact pyIdx_natCast _ _
  have hbot : soft_bot xs = soft_top xs := by
    unfold soft_bot soft_top
    rw [hk]
    rw [show (-((0 : ℕ) : ℤ)) = ((0 : ℕ) : ℤ) by norm_num]
  have hmin : ∀ y ∈ xs, (sortedAsc xs).getD 0 0 ≤ y := by
    intro y hy
    have hperm : List.Perm (sortedAsc xs) xs := List.perm_insertionSort _ _
    have hmem : y ∈ sortedAsc xs := hperm.mem_iff.mpr hy
    have hsorted : (sortedAsc xs).Sorted (· ≤ ·) := List.sorted_insertionSort _ _
    cases hsa : sortedAsc xs with
    | nil => rw [hsa] at hmem; cases hmem
    | cons a t =>
      rw [hsa] at hmem hsorted
      rcases List.sorted_cons.mp hsorted with ⟨hall, _⟩
      rcases List.mem_cons.mp hmem with hya | hyt
      · subst hya; simp
      · simpa using hall y hyt
  refine ⟨hk, htop, hbot, ?_, hmin⟩
  rw [htop, List.get?_eq_get (by omega)]
  rfl

/-- Concrete instance of `soft_bounds_small` at `[3, 1, 2]`. -/
theorem soft_bounds_small_witness :
    ([3, 1, 2] : List ℚ) ≠ [] ∧ ([3, 1, 2] : List ℚ).length < 500
    ∧ kOut ([3, 1, 2] : List ℚ).length = 0
    ∧ soft_bot [3, 1, 2] = soft_top [3, 1, 2] :=
  ⟨by simp, by simp,
    (soft_bounds_small [3, 1, 2] (by simp) (by simp)).1,
    (soft_bounds_small [3, 1, 2] (by simp) (by simp)).2.2.1⟩

/-! ## Claims about the parametric bounds and containment count -/

/-- Claim C3: with `sigma` the population standard deviation (the
non-negative real whose square is `variance`, which divides by `N`), the
counted elements are exactly those strictly between
`mu - 2.58*sigma` and `mu + 2.58*sigma`, and the reported percentage
satisfies `0 ≤ pct ≤ 100`. -/
theorem containment_exact (xs : List ℚ) (hne : xs ≠ []) (s : ℝ) (hs : 0 ≤ s)
    (hsq : s ^ 2 = ((variance xs : ℚ) : ℝ)) :
    0 ≤ pct xs ∧ pct xs ≤ 100
    ∧ countIn xs = xs.countP (inBounds xs)
    ∧ ∀ x : ℚ, inBounds xs x = true ↔
        (((mean xs : ℚ) : ℝ) - 258 / 100 * s < (x : ℝ)
          ∧ (x : ℝ) < ((mean xs : ℚ) : ℝ) + 258 / 100 * s) := by
  have hn : 0 < (xs.length : ℚ) := by
    exact_mod_cast List.length_pos.mpr hne
  have hcle : countIn xs ≤ xs.length := List.countP_le_length _
  refine ⟨?_, ?_, rfl, ?_⟩
  · unfold pct
    positivity
  · unfold pct
    rw [div_le_iff₀ hn]
    have hq : (countIn xs : ℚ) ≤ (xs.length : ℚ) := by exact_mod_cast hcle
    linarith
  · intro x
    unfold inBounds
    rw [decide_eq_true_eq]
    have hcast1 : (((x - mean xs) ^ 2 : ℚ) : ℝ) =
        ((x : ℝ) - ((mean xs : ℚ) : ℝ)) ^ 2 := by push_cast; ring
    have hcast2 : ((((258 : ℚ) / 100) ^ 2 * variance xs : ℚ) : ℝ) =
        ((258 : ℝ) / 100 * s) ^ 2 := by
      push_cast
      rw [mul_pow, ← hsq]
    have key : ((x - mean xs) ^ 2 < (258 / 100) ^ 2 * variance xs) ↔
        (((x : ℝ) - ((mean xs : ℚ) : ℝ)) ^ 2 < ((258 : ℝ) / 100 * s) ^ 2) := by
      rw [← hcast1, ← hcast2]
      exact Rat.cast_lt.symm
    rw [key]
    have hpos : (0 : ℝ) ≤ 258 / 100 * s := by positivity
    constructor
    · intro hlt
      obtain ⟨h1, h2⟩ := abs_lt_of_sq_lt_sq' hlt hpos
      constructor <;> linarith
    · rintro ⟨h1, h2⟩
      apply sq_lt_sq' <;> linarith

/-- Concrete instance of `containment_exact` at `[0, 2]`, whose
population variance is exactly 1, so `sigma = 1`. -/
theorem containment_exact_witness :
    ([0, 2] : List ℚ) ≠ [] ∧ ((0 : ℝ) ≤ 1)
    ∧ ((1 : ℝ) ^ 2 = ((variance [0, 2] : ℚ) : ℝ))
    ∧ 0 ≤ pct [0, 2] ∧ pct [0, 2] ≤ 100 := by
  have hv : variance [0, 2] = 1 := by
    norm_num [variance, mean, List.sum_cons, List.sum_nil]
  have hsq : (1 : ℝ) ^ 2 = ((variance [0, 2] : ℚ) : ℝ) := by
    rw [hv]; norm_num
  exact ⟨by simp, by norm_num, hsq,
    (containment_exact [0, 2] (by simp) 1 (by norm_num) hsq).1,
    (containment_exact [0, 2] (by simp) 1 (by norm_num) hsq).2.1⟩

/-- Claim C6 (amended): for a single-element input the variance (hence
sigma) is 0, both parametric bounds collapse to `mu`, and the strict
comparison makes the containment count 0 and the percentage 0%, not
100%. -/
theorem degenerate_single_stats (a : ℚ) :
    variance [a] = 0 ∧ countIn [a] = 0 ∧ pct [a] = 0
    ∧ ∀ s : ℝ, 0 ≤ s → s ^ 2 = ((variance [a] : ℚ) : ℝ) → s = 0 := by
  have hm : mean [a] = a := by
    norm_num [mean, List.sum_cons, List.sum_nil]
  have hv : variance [a] = 0 := by
    norm_num [variance, hm, List.sum_cons, List.sum_nil]
  have hcnt : countIn [a] = 0 := by
    simp [countIn, inBounds, hv, hm, List.countP_cons, List.countP_nil]
  refine ⟨hv, hcnt, by simp [pct, hcnt], ?_⟩
  intro s _ hsq
  rw [hv] at hsq
  norm_num at hsq
  exact hsq

/-- Concrete instance of `degenerate_single_stats` at the single-element
array `[5]` with `s = 0`. -/
theorem degenerate_single_stats_witness :
    ((0 : ℝ) ≤ 0) ∧ ((0 : ℝ) ^ 2 = ((variance [(5 : ℚ)] : ℚ) : ℝ))
    ∧ variance [(5 : ℚ)] = 0 ∧ countIn [(5 : ℚ)] = 0 ∧ pct [(5 : ℚ)] = 0
    ∧ (0 : ℝ) = 0 := by
  have h := degenerate_single_stats 5
  have hsq : (0 : ℝ) ^ 2 = ((variance [(5 : ℚ)] : ℚ) : ℝ) := by
    rw [h.1]; norm_num
  exact ⟨le_refl 0, hsq, h.1, h.2.1, h.2.2.1, h.2.2.2 0 (le_refl 0) hsq⟩

/-- Claim C6 counterexample: the single-element input `[5]` reports a
containment percentage of 0, not 100. -/
theorem single_element_pct_zero :
    pct [(5 : ℚ)] = 0 ∧ (0 : ℚ) ≠ 100 := by
  constructor
  · norm_num [pct, countIn, inBounds, variance, mean,
      List.countP_cons, List.countP_nil, List.sum_cons, List.sum_nil]
  · norm_num

/-! ## Claims about the Path Annotation Reducer -/

/-- A filterMap whose function always succeeds on the list is a map. -/
theorem filterMap_eq_map_of {α β : Type} (l : List α) (f : α → Option β)
    (g : α → β) (h : ∀ x ∈ l, f x = some (g x)) : l.filterMap f = l.map g := by
  induction l with
  | nil => rfl
  | cons a t ih =>
    rw [List.map_cons, List.filterMap_cons_some (h a (List.mem_cons_self a t))]
    exact congrArg _ (ih fun x hx => h x (List.mem_cons_of_mem a hx))

/-- Once the running label equals the repeated value, a constant tail
produces no annotation. -/
theorem annotLoop_replicate (w : String) (L i : ℕ) :
    annotLoop (some w) i (List.replicate L w) = [] := by
  induction L generalizing i with
  | zero => rfl
  | succ L ih =>
    rw [List.replicate_succ]
    simp [annotLoop, ih]

/-- The annotation loop started after a previous label `prev` annotates
exactly the positions whose label differs from its predecessor in
`prev :: ws`. -/
theorem annotLoop_some_eq (ws : List String) : ∀ (prev : String) (i : ℕ),
    annotLoop (some prev) i ws =
      (List.range ws.length).filterMap fun j =>
        if ws.getD j "" ≠ (prev :: ws).getD j "" then
          some (i + j, ws.getD j "") else none := by
  induction ws with
  | nil => intro prev i; simp [annotLoop]
  | cons w t ih =>
    intro prev i
    rw [show (w :: t : List String).length = t.length + 1 from rfl,
      List.range_succ_eq_map]
    have htail : annotLoop (some w) (i + 1) t =
        List.filterMap
          ((fun j => if (w :: t).getD j "" ≠ (prev :: w :: t).getD j "" then
            some (i + j, (w :: t).getD j "") else none) ∘ Nat.succ)
          (List.range t.length) := by
      rw [ih w (i + 1)]
      apply List.filterMap_congr
      intro j _
      simp only [Function.comp_apply, List.getD_cons_succ, Nat.succ_eq_add_one]
      rw [show i + (j + 1) = i + 1 + j from by omega]
    by_cases hwp : w = prev
    · subst hwp
      have hL : annotLoop (some w) i (w :: t) = annotLoop (some w) (i + 1) t := by
        simp [annotLoop]
      have hcons :
          List.filterMap
            (fun j => if (w :: t).getD j "" ≠ (w :: w :: t).getD j "" then
              some (i + j, (w :: t).getD j "") else none)
            (0 :: List.map Nat.succ (List.range t.length)) =
          List.filterMap
            (fun j => if (w :: t).getD j "" ≠ (w :: w :: t).getD j "" then
              some (i + j, (w :: t).getD j "") else none)
            (List.map Nat.succ (List.range t.length)) :=
        List.filterMap_cons_none (by simp)
      rw [hL, hcons, List.filterMap_map]
      exact htail
    · have hL : annotLoop (some prev) i (w :: t) =
          (i, w) :: annotLoop (some w) (i + 1) t := by
        simp [annotLoop, hwp]
      have hcons :
          List.filterMap
            (fun j => if (w :: t).getD j "" ≠ (prev :: w :: t).getD j "" then
              some (i + j, (w :: t).getD j "") else none)
            (0 :: List.map Nat.succ (List.range t.length)) =
          (i, w) :: List.filterMap
            (fun j => if (w :: t).getD j "" ≠ (prev :: w :: t).getD j "" then
              some (i + j, (w :: t).getD j "") else none)
            (List.map Nat.succ (List.range t.length)) :=
        List.filterMap_cons_some (by simp [hwp])
      rw [hL, hcons, List.filterMap_map]
      exact congrArg _ htail

/-- The annotation pass of the code equals the per-index selection of the spec. -/
theorem pathAnnot_eq_annotSpec (words : List String) :
    pathAnnot words = annotSpec words := by
  cases words with
  | nil => rfl
  | cons w t =>
    unfold pathAnnot annotSpec
    have h0 : annotLoop none 0 (w :: t) = (0, w) :: annotLoop (some w) 1 t := by
      simp [annotLoop]
    rw [h0, annotLoop_some_eq t w 1]
    rw [show (w :: t : List String).length = t.length + 1 from rfl,
      List.range_succ_eq_map]
    have hcons :
        List.filterMap
          (fun i => if i = 0 ∨ (w :: t).getD i "" ≠ (w :: t).getD (i - 1) ""
            then some (i, (w :: t).getD i "") else none)
          (0 :: List.map Nat.succ (List.range t.length)) =
        (0, w) :: List.filterMap
          (fun i => if i = 0 ∨ (w :: t).getD i "" ≠ (w :: t).getD (i - 1) ""
            then some (i, (w :: t).getD i "") else none)
          (List.map Nat.succ (List.range t.length)) :=
      List.filterMap_cons_some (by simp)
    rw [hcons, List.filterMap_map]
    apply congrArg
    apply List.filterMap_congr
    intro j _
    simp only [Function.comp_apply, List.getD_cons_succ, Nat.succ_eq_add_one,
      Nat.add_sub_cancel]
    rw [show (1 : ℕ) + j = j + 1 from by omega]
    simp

/-- Claim C5: the path annotation reducer annotates exactly the
`(index, label)` pairs with `index = 0` or
`label[index] ≠ label[index-1]`, in input order; a sequence with no
consecutive repeats is annotated at every index, and a constant sequence
is annotated exactly once, at index 0. -/
theorem path_annot_exact (words : List String) :
    pathAnnot words = annotSpec words
    ∧ (List.Chain' (· ≠ ·) words →
        pathAnnot words =
          (List.range words.length).map fun i => (i, words.getD i ""))
    ∧ ∀ (L : ℕ) (w : String), pathAnnot (List.replicate (L + 1) w) = [(0, w)] := by
  refine ⟨pathAnnot_eq_annotSpec words, ?_, ?_⟩
  · intro hch
    rw [pathAnnot_eq_annotSpec words]
    unfold annotSpec
    apply filterMap_eq_map_of
    intro x hx
    rw [if_pos]
    rcases Nat.eq_zero_or_pos x with hx0 | hx1
    · exact Or.inl hx0
    · right
      have hxlt : x < words.length := List.mem_range.mp hx
      obtain ⟨j, rfl⟩ : ∃ j, x = j + 1 := ⟨x - 1, by omega⟩
      have hj : j < words.length - 1 := by omega
      have hne := List.chain'_iff_get.mp hch j hj
      rw [List.getD_eq_getElem _ _ hxlt, Nat.add_sub_cancel,
        List.getD_eq_getElem _ _ (by omega : j < words.length)]
      simp only [List.get_eq_getElem] at hne
      exact hne.symm
  · intro L w
    rw [List.replicate_succ]
    unfold pathAnnot
    have h0 : annotLoop none 0 (w :: List.replicate L w) =
        (0, w) :: annotLoop (some w) 1 (List.replicate L w) := by
      simp [annotLoop]
    rw [h0, annotLoop_replicate]

/-- Concrete instance of `path_annot_exact`: the repeat-free sequence
`["a", "b"]` is annotated at every index, and the constant sequence
`["p", "p", "p"]` exactly once at index 0. -/
theorem path_annot_exact_witness :
    List.Chain' (· ≠ ·) (["a", "b"] : List String)
    ∧ pathAnnot ["a", "b"] = annotSpec ["a", "b"]
    ∧ pathAnnot ["a", "b"] =
        (List.range (["a", "b"] : List String).length).map
          (fun i => (i, (["a", "b"] : List String).getD i ""))
    ∧ pathAnnot (List.replicate (2 + 1) "p") = [(0, "p")] := by
  have hch : List.Chain' (· ≠ ·) (["a", "b"] : List String) := by simp
  exact ⟨hch, (path_annot_exact ["a", "b"]).1,
    (path_annot_exact ["a", "b"]).2.1 hch,
    (path_annot_exact ["a", "b"]).2.2 2 "p"⟩

/-! ## Claims about the save/display behaviour of the composers -/

/-- Claim C7 (amended): the five composers that take an optional save
name display when it is absent and otherwise save under `figures/` with
the `.png` extension enforced (appended when missing, kept when already
present); `embedding_histogram` takes no save name and always displays;
`visualize_embedding_space` takes no save name, always saves to the
fixed path `figures/pca_embedding_space.png`, and also displays. -/
theorem composer_save_plans (s : List Char) :
    visualize_attrs_output none = [OutputAction.display]
    ∧ visualize_attrs_output (some s) =
        [OutputAction.save (figuresDir ++ normalizeSave s)]
    ∧ visualize_ablation_scores_output none = visualize_attrs_output none
    ∧ visualize_ablation_scores_output (some s) = visualize_attrs_output (some s)
    ∧ visualize_word_paths_output none = visualize_attrs_output none
    ∧ visualize_word_paths_output (some s) = visualize_attrs_output (some s)
    ∧ visualize_word_path_output none = visualize_attrs_output none
    ∧ visualize_word_path_output (some s) = visualize_attrs_output (some s)
    ∧ visualize_word_path_table_output none = visualize_attrs_output none
    ∧ visualize_word_path_table_output (some s) = visualize_attrs_output (some s)
    ∧ pngExt.isSuffixOf (normalizeSave s) = true
    ∧ (pngExt.isSuffixOf s = true → normalizeSave s = s)
    ∧ embedding_histogram_output = [OutputAction.display]
    ∧ visualize_embedding_space_output =
        [OutputAction.save ("figures/pca_embedding_space.png".toList),
         OutputAction.display] := by
  refine ⟨rfl, rfl, rfl, rfl, rfl, rfl, rfl, rfl, rfl, rfl, ?_, ?_, rfl, rfl⟩
  · unfold normalizeSave
    by_cases h : pngExt.isSuffixOf s
    · rw [if_pos h]; exact h
    · rw [if_neg h]
      exact List.isSuffixOf_iff_suffix.mpr (List.suffix_append s pngExt)
  · intro h
    unfold normalizeSave
    rw [if_pos h]

/-- Concrete instance of `composer_save_plans` at the name `"a.png"`,
which already carries the extension. -/
theorem composer_save_plans_witness :
    pngExt.isSuffixOf ("a.png".toList) = true
    ∧ visualize_attrs_output (some ("a.png".toList)) =
        [OutputAction.save (figuresDir ++ normalizeSave ("a.png".toList))]
    ∧ normalizeSave ("a.png".toList) = "a.png".toList
    ∧ embedding_histogram_output = [OutputAction.display] := by
  have h : pngExt.isSuffixOf ("a.png".toList) = true := by
    apply List.isSuffixOf_iff_suffix.mpr
    exact ⟨['a'], rfl⟩
  exact ⟨h, (composer_save_plans ("a.png".toList)).2.1,
    (composer_save_plans ("a.png".toList)).2.2.2.2.2.2.2.2.2.2.2.1 h,
    (composer_save_plans ("a.png".toList)).2.2.2.2.2.2.2.2.2.2.2.2.1⟩

/-- Claim C7 counterexample: `visualize_embedding_space` is a figure
composer with no save-target name (the name is necessarily absent), yet
it persists the figure to a fixed path instead of only displaying it. -/
theorem embedding_space_always_saves :
    visualize_embedding_space_output ≠ [OutputAction.display]
    ∧ OutputAction.save ("figures/pca_embedding_space.png".toList) ∈
        visualize_embedding_space_output := by
  constructor
  · simp [visualize_embedding_space_output]
  · unfold visualize_embedding_space_output
    exact List.mem_cons_self _ _

end Viz
